import Mathlib

/-!
Verification development for the `pop_exp` population-exposure pipeline
(`src/pop_exp/pop_ex_helpers.py`).

The geometric core (explode / unary union / explode / spatial join of
`combine_overlapping_geometries`, the bounding-box stage, and the zonal
aggregation of `mask_raster_partial_pixel` / `find_num_people_affected`) is
embedded over a discrete plane: a geometry is a finite list of unit grid
cells, the cell `(i, j)` standing for the closed unit square
`[i, i+1] × [j, j+1]`.  Under this reading:

* two geometries *intersect* (the `predicate="intersects"` of `gpd.sjoin`,
  true as soon as the closed sets share a point, boundary contact included)
  iff they contain equal or 8-adjacent cells (`touch8`);
* the single-part pieces produced by `explode` — maximal parts with
  connected interior, as GEOS produces them when exploding a
  `unary_union` — are the 4-connected components of the cell set (`adj4`);
  two cells that touch only at a corner belong to different parts, exactly
  as two squares meeting only at a point union into a two-part
  MultiPolygon.
* `unary_union` is the union of the cell sets.

The buffering engine (`add_buffered_geom_col`) is embedded over the real
plane `ℝ × ℝ`: a geometry is a set of points, the positive buffer of
radius `d` is the closed `d`-thickening (all points within distance `d` of
the geometry), and — following shapely's semantics for negative
distances — a negative buffer is the erosion.  The UTM round-trip
(`to_crs` into the metric frame and back) is modelled as exact, which is
the tolerance the specification itself allows for reprojection.

The external raster primitive `exact_extract` is not part of the
repository; it is modelled from its contract stated in the specification:
given a raster and a set of polygons in a matching frame it returns, per
polygon, the sum of pixel values weighted by the fraction of the pixel the
polygon covers.  In the cell model a geometry covers a pixel either not at
all or completely, and nodata pixels simply carry no entry in the raster.
-/

/-! ### String and character constants (identifiers, separators, paths) -/

def sep : String := "___"

def emptyStr : String := ""

def geojsonExt : String := ".geojson"

def parquetExt : String := ".parquet"

def notFoundMsg : String := "File not found or unsupported file type: "

def epsgTag : String := "EPSG:"

def slashChar : Char := '/'

def dotChar : Char := '.'

/-! ### The discrete plane: cells, adjacency, intersection -/

/-- A raster-aligned unit cell of the plane: `(i, j)` is `[i,i+1] × [j,j+1]`. -/
abbrev Cell : Type := ℤ × ℤ

/-- A geometry: a finite list of unit cells. -/
abbrev Geom : Type := List Cell

/-- Edge adjacency: the two closed unit squares share a full edge, i.e. the
interiors of the squares are connected through their union.  This is the
adjacency along which `explode` splits a union into single-part pieces. -/
def adj4 (a b : Cell) : Bool :=
  (a.1 - b.1).natAbs + (a.2 - b.2).natAbs == 1

/-- Closed contact: the two closed unit squares share at least a point
(equal cells, shared edge, or shared corner).  This is the `intersects`
predicate of the spatial join. -/
def touch8 (a b : Cell) : Bool :=
  decide ((a.1 - b.1).natAbs ≤ 1) && decide ((a.2 - b.2).natAbs ≤ 1)

/-- The `intersects` predicate of `gpd.sjoin` on two geometries: their
closed point sets share at least one point. -/
def intersectsB (g h : Geom) : Bool :=
  g.any (fun a => h.any (fun b => touch8 a b))

/-- The two geometries overlap or share a boundary edge (not merely a
corner): their union has connected interior, hence `unary_union` fuses
them into one single-part piece. -/
def meets4 (g h : Geom) : Bool :=
  g.any (fun a => h.any (fun b => a == b || adj4 a b))

/-! ### Connected components (`explode` of a geometry / of a union) -/

/-- One growth step of a connected-component computation inside the cell
set `g`: keep the cells of `g` already collected in `s` or edge-adjacent
to a collected cell. -/
def step (g s : Geom) : Geom :=
  g.filter (fun c => decide (c ∈ s) || s.any (fun d => adj4 c d))

/-- The 4-connected component of `g` containing `c` (empty if `c ∉ g`):
`g.length` growth steps from `{c}` reach the fixpoint. -/
def comp (g : Geom) (c : Cell) : Geom :=
  (step g)^[g.length] (g.filter (fun x => x == c))

/-- `explode`: the maximal single-part (interior-connected) pieces of a
geometry, listed without repetition. -/
def parts (g : Geom) : List Geom :=
  (g.map (comp g)).dedup

/-- One edge of the connectivity graph that `explode` computes on a cell
set: both cells belong to the set and share an edge. -/
def AdjIn (g : Geom) (a b : Cell) : Prop :=
  a ∈ g ∧ b ∈ g ∧ adj4 a b = true

/-- Connectivity inside a cell set: a chain of edge-adjacent cells of `g`
leads from the first cell to the second. -/
def Reach (g : Geom) : Cell → Cell → Prop :=
  Relation.ReflTransGen (AdjIn g)

/-! ### The Overlap Merger (`combine_overlapping_geometries`) -/

/-- Python `"___".join(xs)` (the `agg` step of the merger). -/
def joinIds : List String → String
  | [] => emptyStr
  | [a] => a
  | a :: b :: rest => a ++ sep ++ joinIds (b :: rest)

/-- Step 1 of the merger: `ch_df.explode()` — split every row's geometry
into its single-part pieces, one row per piece, all carrying the row's id. -/
def explodeRows (rows : List (String × Geom)) : List (String × Geom) :=
  rows.flatMap (fun p => (parts p.2).map (fun g => (p.1, g)))

/-- `combine_overlapping_geometries`: explode the rows, take the unary
union of all geometries, explode the union into its single-part regions,
and give each region the ids of every exploded input geometry that
intersects it, joined with `"___"` in row order.  (The pandas `groupby`
keys the output rows by region geometry; the model lists them in the
order the regions come out of the union.) -/
def combine_overlapping_geometries (rows : List (String × Geom)) :
    List (String × Geom) :=
  let ex := explodeRows rows
  let u := (ex.flatMap Prod.snd).dedup
  (parts u).map (fun r =>
    (joinIds ((ex.filter (fun p => intersectsB p.2 r)).map Prod.fst), r))

/-! ### Bounding boxes, raster, zonal aggregation, orchestrator -/

/-- `geom.envelope`: the cells of the axis-aligned bounding rectangle
(the live pipelines call `add_bounding_box_col` with `buffer_buffer = 0`,
and `envelope.buffer(0)` is the envelope itself). -/
def envelope (g : Geom) : Geom :=
  match g with
  | [] => []
  | c :: rest =>
    let xs := (c :: rest).map Prod.fst
    let ys := (c :: rest).map Prod.snd
    let x0 := xs.foldl min c.1
    let x1 := xs.foldl max c.1
    let y0 := ys.foldl min c.2
    let y1 := ys.foldl max c.2
    (List.range (x1 - x0 + 1).toNat).flatMap (fun i =>
      (List.range (y1 - y0 + 1).toNat).map (fun j => (x0 + i, y0 + j)))

/-- A working row of the hazard GeoDataFrame after the id/geometry
selection in `find_num_people_affected`: the hazard id, the active
geometry column, and the optional `bounding_box` column. -/
structure HRow where
  id : String
  geometry : Geom
  bounding_box : Option Geom
deriving DecidableEq

/-- `add_bounding_box_col` with `target_col="geometry"` and
`buffer_buffer = 0`, per row: store the geometry's envelope in the
`bounding_box` column. -/
def add_bounding_box_col (row : HRow) : HRow :=
  ⟨row.id, row.geometry, some (envelope row.geometry)⟩

/-- A population raster: the list of its pixels carrying a value, with
that value.  Pixels outside the raster extent, and nodata pixels, have no
entry. -/
structure Raster where
  data : List (Cell × ℚ)
deriving DecidableEq

/-- Modelled from the spec: the contract of the external `exact_extract`
primitive ("given a raster and a set of polygons in matching CRS, return,
per polygon, the raster-value sum weighted by fractional pixel
coverage").  In the cell model a geometry covers each pixel with fraction
0 or 1, so the sum ranges over the raster pixels that lie in the
geometry. -/
def exactExtractSum (raster : Raster) (g : Geom) : ℚ :=
  ((raster.data.filter (fun p => decide (p.1 ∈ g))).map Prod.snd).sum

/-- `mask_raster_partial_pixel`: per geometry row, the exact-extract
population sum.  The CRS alignment round-trip of the source is modelled
as exact; the `bounding_box` column travels through untouched and unread. -/
def mask_raster_partial_pixel (rows : List HRow) (raster : Raster) :
    List (HRow × ℚ) :=
  rows.map (fun row => (row, exactExtractSum raster row.geometry))

/-- The id/geometry selection at the head of `find_num_people_affected`
(`ch_df[["ID_climate_hazard", "buffered_hazard"]]` renamed to
`geometry`): a bare id/geometry pair becomes a working row with no
bounding box yet. -/
def toHRow (p : String × Geom) : HRow :=
  ⟨p.1, p.2, none⟩

/-- `find_num_people_affected` from the point where `prep_data` has
produced the buffered hazard rows (file loading and buffering are the
upstream stages): optionally merge overlapping hazards, add the bounding
box column, mask the raster, and report id with population. -/
def find_num_people_affected (hazards : List (String × Geom))
    (raster : Raster) (by_unique_hazard : Bool) : List (String × ℚ) :=
  let ch := if by_unique_hazard then hazards
            else combine_overlapping_geometries hazards
  let withBox := (ch.map toHRow).map add_bounding_box_col
  (mask_raster_partial_pixel withBox raster).map (fun p => (p.1.id, p.2))

/-- The same pipeline with the `add_bounding_box_col` stage removed: the
comparison pipeline of the refinement claim that the bounding-box stage
has no effect on the computed populations. -/
def find_num_people_affected_without_bbox (hazards : List (String × Geom))
    (raster : Raster) (by_unique_hazard : Bool) : List (String × ℚ) :=
  let ch := if by_unique_hazard then hazards
            else combine_overlapping_geometries hazards
  let rows := ch.map toHRow
  (mask_raster_partial_pixel rows raster).map (fun p => (p.1.id, p.2))

/-! ### The Projection Selector (`get_best_utm_projection`) -/

/-- The EPSG number computed by `get_best_utm_projection`:
`zone = (lon + 180) // 6 + 1`, `hemisphere = 326 if lat >= 0 else 327`,
`code = hemisphere * 100 + zone`.  Coordinates are modelled as rationals;
Python's float `//` is floor division. -/
def get_best_utm_code (lat lon : ℚ) : ℤ :=
  (if 0 ≤ lat then 326 else 327) * 100 + (⌊(lon + 180) / 6⌋ + 1)

/-- `get_best_utm_projection`: the `f"EPSG:{int(epsg_code)}"` string. -/
def get_best_utm_projection (lat lon : ℚ) : String :=
  epsgTag ++ toString (get_best_utm_code lat lon)

/-! ### Input loading (`load_ch`) -/

/-- The data a successful `load_ch` hands back: a vector dataset read by
the GeoJSON reader or by the parquet reader. -/
inductive GeoData where
  | geojson (path : String)
  | parquet (path : String)
deriving DecidableEq

/-- The characters of the last path component (after the last `/`). -/
def lastComponent (cs : List Char) : List Char :=
  (cs.reverse.takeWhile (fun c => !(c == slashChar))).reverse

/-- `name.rfind('.')`: index of the last dot, if any. -/
def lastDotIdx (cs : List Char) : Option ℕ :=
  match (cs.reverse.findIdx? (fun c => c == dotChar)) with
  | none => none
  | some j => some (cs.length - 1 - j)

/-- `pathlib.Path(p).suffix`: the extension of the final component,
`name[i:]` for `i = name.rfind('.')` when `0 < i < len(name) - 1`, else
the empty string. -/
def pathSuffix (p : String) : String :=
  let name := lastComponent p.toList
  match lastDotIdx name with
  | none => emptyStr
  | some i =>
    if 0 < i ∧ i < name.length - 1 then String.mk (name.drop i) else emptyStr

/-- The message of the exception `load_ch` raises on any other suffix. -/
def unsupportedMsg (p : String) : String := notFoundMsg ++ p

/-- `load_ch`: dispatch on the path suffix; `.geojson` and `.parquet` are
read, anything else raises (`FileNotFoundError`, message "File not found
or unsupported file type"), which no caller catches, so the run aborts. -/
def load_ch (p : String) : Except String GeoData :=
  if pathSuffix p = geojsonExt then Except.ok (GeoData.geojson p)
  else if pathSuffix p = parquetExt then Except.ok (GeoData.parquet p)
  else Except.error (unsupportedMsg p)

/-! ### The Buffering Engine over the real plane -/

/-- A point of the plane in the metric (projected) frame. -/
abbrev Pt : Type := ℝ × ℝ

/-- The geometry `geom_series_utm.buffer(buffer_dist)` of
`add_buffered_geom_col`, with the `to_crs` round-trip into the hazard's
UTM frame and back modelled as exact.  Three regimes, following
shapely/GEOS semantics: for `0 < d` the closed `d`-neighbourhood of the
geometry; for `d = 0` only the areal component survives — the closure of
the interior, so a valid polygon comes back unchanged while a point or
line hazard buffers to `POLYGON EMPTY`; and for `d < 0` the erosion — the
points whose whole `|d|`-ball lies inside the geometry. -/
def bufferGeom (d : ℝ) (G : Set Pt) : Set Pt :=
  {x | (0 < d ∧ x ∈ Metric.cthickening d G) ∨
       (d = 0 ∧ x ∈ closure (interior G)) ∨
       (d < 0 ∧ Metric.closedBall x (-d) ⊆ G)}

/-- A hazard row entering `add_buffered_geom_col`: its buffer distance in
meters and its geometry. -/
structure BRow where
  buffer_dist : ℝ
  geometry : Set Pt

/-- `add_buffered_geom_col`: per row, attach the buffered geometry. -/
def add_buffered_geom_col (rows : List BRow) : List (BRow × Set Pt) :=
  rows.map (fun row => (row, bufferGeom row.buffer_dist row.geometry))

/-! ### Concrete cells and identifiers used by witnesses -/

def idA : String := "A"

def idB : String := "B"

def idC : String := "C"

def idX : String := "X"

def idY : String := "Y"

def idH : String := "H"

def csvPath : String := "data.csv"

def cellsA : Geom := [((0 : ℤ), (0 : ℤ))]

def cellsB : Geom := [((1 : ℤ), (0 : ℤ))]

def cellsBcorner : Geom := [((1 : ℤ), (1 : ℤ))]

def cellsC : Geom := [((5 : ℤ), (5 : ℤ))]

def cellsFar : Geom := [((2 : ℤ), (2 : ℤ))]

def cellsMultiA : Geom := [((0 : ℤ), (0 : ℤ)), ((5 : ℤ), (5 : ℤ))]

def cellsSplitA : Geom := [((0 : ℤ), (0 : ℤ)), ((2 : ℤ), (0 : ℤ))]

/-! ## Basic lemmas about cells, contact, and intersection -/

theorem bool_eq_of_iff {a b : Bool} (h : a = true ↔ b = true) : a = b := by
  cases a <;> cases b <;> simp_all

theorem touch8_refl (a : Cell) : touch8 a a = true := by
  simp [touch8]

theorem touch8_symm (a b : Cell) : touch8 a b = touch8 b a := by
  apply bool_eq_of_iff
  simp only [touch8, Bool.and_eq_true, decide_eq_true_eq]
  omega

theorem adj4_symm (a b : Cell) : adj4 a b = adj4 b a := by
  apply bool_eq_of_iff
  simp only [adj4, beq_iff_eq]
  omega

theorem adj4_touch8 {a b : Cell} (h : adj4 a b = true) : touch8 a b = true := by
  simp only [adj4, beq_iff_eq] at h
  simp only [touch8, Bool.and_eq_true, decide_eq_true_eq]
  omega

theorem intersectsB_true_iff {g h : Geom} :
    intersectsB g h = true ↔ ∃ a ∈ g, ∃ b ∈ h, touch8 a b = true := by
  simp [intersectsB]

theorem intersectsB_false_iff {g h : Geom} :
    intersectsB g h = false ↔ ∀ a ∈ g, ∀ b ∈ h, touch8 a b = false := by
  simp [intersectsB]

theorem intersects_of_touch {g h : Geom} {a b : Cell} (ha : a ∈ g) (hb : b ∈ h)
    (ht : touch8 a b = true) : intersectsB g h = true :=
  intersectsB_true_iff.2 ⟨a, ha, b, hb, ht⟩

theorem no_touch_of_intersects_false {g h : Geom} (hf : intersectsB g h = false)
    {a b : Cell} (ha : a ∈ g) (hb : b ∈ h) : touch8 a b = false :=
  intersectsB_false_iff.1 hf a ha b hb

theorem mem_disjoint_of_intersects_false {g h : Geom} (hf : intersectsB g h = false)
    {x : Cell} (hx : x ∈ g) : x ∉ h := by
  intro hxh
  have := no_touch_of_intersects_false hf hx hxh
  rw [touch8_refl x] at this
  cases this

/-! ## The component computation: soundness, completeness, shape -/

theorem mem_step {g s : Geom} {c : Cell} :
    c ∈ step g s ↔ c ∈ g ∧ (c ∈ s ∨ ∃ d ∈ s, adj4 c d = true) := by
  simp [step, List.mem_filter]

theorem step_subset {g s : Geom} {c : Cell} (h : c ∈ step g s) : c ∈ g :=
  (mem_step.1 h).1

theorem subset_step {g s : Geom} (hs : ∀ x ∈ s, x ∈ g) :
    ∀ x ∈ s, x ∈ step g s :=
  fun x hx => mem_step.2 ⟨hs x hx, Or.inl hx⟩

theorem step_mono_set {g s t : Geom} (hst : ∀ x ∈ s, x ∈ t) :
    ∀ x ∈ step g s, x ∈ step g t := by
  intro x hx
  obtain ⟨hxg, hrest⟩ := mem_step.1 hx
  refine mem_step.2 ⟨hxg, ?_⟩
  rcases hrest with h1 | ⟨d, hd, ha⟩
  · exact Or.inl (hst x h1)
  · exact Or.inr ⟨d, hst d hd, ha⟩

theorem step_congr_set {g s t : Geom} (h : ∀ x, x ∈ s ↔ x ∈ t) :
    step g s = step g t := by
  apply List.filter_congr
  intro x _
  have h1 : decide (x ∈ s) = decide (x ∈ t) := decide_eq_decide.2 (h x)
  have h2 : (s.any fun d => adj4 x d) = (t.any fun d => adj4 x d) := by
    apply bool_eq_of_iff
    simp only [List.any_eq_true]
    constructor
    · rintro ⟨d, hd, hadj⟩; exact ⟨d, (h d).1 hd, hadj⟩
    · rintro ⟨d, hd, hadj⟩; exact ⟨d, (h d).2 hd, hadj⟩
  rw [h1, h2]

theorem iterate_reach {g s : Geom} {c : Cell}
    (hs : ∀ x ∈ s, x ∈ g ∧ Reach g c x) :
    ∀ n, ∀ x ∈ (step g)^[n] s, x ∈ g ∧ Reach g c x := by
  intro n
  induction n with
  | zero => exact hs
  | succ n ih =>
    intro x hx
    rw [Function.iterate_succ_apply'] at hx
    obtain ⟨hxg, hrest⟩ := mem_step.1 hx
    rcases hrest with hmem | ⟨d, hd, hadj⟩
    · exact ih x hmem
    · obtain ⟨hdg, hdr⟩ := ih d hd
      refine ⟨hxg, hdr.tail ⟨hdg, hxg, ?_⟩⟩
      rw [adj4_symm]; exact hadj

theorem comp_sound {g : Geom} {c x : Cell} (h : x ∈ comp g c) :
    x ∈ g ∧ Reach g c x := by
  refine iterate_reach ?_ g.length x h
  intro y hy
  obtain ⟨hyg, hyc⟩ := List.mem_filter.1 hy
  have : y = c := by simpa using hyc
  subst this
  exact ⟨hyg, Relation.ReflTransGen.refl⟩

theorem iterate_subset_g {g s : Geom} (hs : ∀ x ∈ s, x ∈ g) :
    ∀ n, ∀ x ∈ (step g)^[n] s, x ∈ g := by
  intro n
  cases n with
  | zero => exact hs
  | succ n =>
    intro x hx
    rw [Function.iterate_succ_apply'] at hx
    exact step_subset hx

theorem iterate_le_succ {g s : Geom} (hs : ∀ x ∈ s, x ∈ g) (n : ℕ) :
    ∀ x ∈ (step g)^[n] s, x ∈ (step g)^[n + 1] s := by
  induction n with
  | zero =>
    intro x hx
    rw [Function.iterate_one]
    exact subset_step hs x hx
  | succ n ih =>
    intro x hx
    rw [Function.iterate_succ_apply'] at hx
    rw [Function.iterate_succ_apply']
    exact step_mono_set ih x hx

theorem iterate_le_of_le {g s : Geom} (hs : ∀ x ∈ s, x ∈ g) {n m : ℕ}
    (hnm : n ≤ m) : ∀ x ∈ (step g)^[n] s, x ∈ (step g)^[m] s := by
  induction m with
  | zero =>
    intro x hx
    have : n = 0 := Nat.le_zero.1 hnm
    rwa [this] at hx
  | succ m ih =>
    intro x hx
    rcases Nat.lt_or_ge n (m + 1) with hlt | hge
    · exact iterate_le_succ hs m x (ih (Nat.lt_succ_iff.1 hlt) x hx)
    · have : n = m + 1 := Nat.le_antisymm hnm hge
      rwa [this] at hx

theorem mem_iterate_of_mem {g s : Geom} (hs : ∀ x ∈ s, x ∈ g) (n : ℕ) :
    ∀ x ∈ s, x ∈ (step g)^[n] s := by
  intro x hx
  exact iterate_le_of_le hs (Nat.zero_le n) x hx

theorem exists_stab (g s : Geom) (hs : ∀ x ∈ s, x ∈ g) :
    ∃ k ≤ g.length, ∀ x, x ∈ (step g)^[k + 1] s ↔ x ∈ (step g)^[k] s := by
  by_contra hcon
  push_neg at hcon
  have hssub : ∀ k ≤ g.length,
      ((step g)^[k] s).toFinset ⊂ ((step g)^[k + 1] s).toFinset := by
    intro k hk
    obtain ⟨x, hx⟩ := hcon k hk
    have hsub : ((step g)^[k] s).toFinset ⊆ ((step g)^[k + 1] s).toFinset := by
      intro y hy
      exact List.mem_toFinset.2 (iterate_le_succ hs k y (List.mem_toFinset.1 hy))
    refine Finset.ssubset_iff_subset_ne.2 ⟨hsub, ?_⟩
    intro heq
    rcases hx with ⟨h1, h2⟩ | ⟨h1, h2⟩
    · exact h2 (List.mem_toFinset.1 (heq ▸ List.mem_toFinset.2 h1))
    · exact h1 (iterate_le_succ hs k x h2)
  have hcard : ∀ k ≤ g.length + 1, k ≤ ((step g)^[k] s).toFinset.card := by
    intro k
    induction k with
    | zero => intro _; exact Nat.zero_le _
    | succ k ih =>
      intro hk
      have hk' : k ≤ g.length := Nat.lt_succ_iff.1 hk
      have h1 := ih (Nat.le_succ_of_le hk')
      have h2 := Finset.card_lt_card (hssub k hk')
      omega
  have hbound : ((step g)^[g.length + 1] s).toFinset.card ≤ g.length := by
    calc ((step g)^[g.length + 1] s).toFinset.card
        ≤ g.toFinset.card := by
          apply Finset.card_le_card
          intro y hy
          exact List.mem_toFinset.2
            (iterate_subset_g hs (g.length + 1) y (List.mem_toFinset.1 hy))
      _ ≤ g.length := List.toFinset_card_le g
  have := hcard (g.length + 1) (Nat.le_refl _)
  omega

theorem comp_fixpoint (g : Geom) (c : Cell) :
    ∀ x, x ∈ step g (comp g c) ↔ x ∈ comp g c := by
  have hs : ∀ x ∈ g.filter (fun x => x == c), x ∈ g :=
    fun x hx => (List.mem_filter.1 hx).1
  obtain ⟨k, hk, hstab⟩ := exists_stab g (g.filter (fun x => x == c)) hs
  rw [Function.iterate_succ_apply'] at hstab
  have hfrom : ∀ m, k ≤ m →
      ∀ x, (x ∈ (step g)^[m] (g.filter (fun x => x == c)) ↔
            x ∈ (step g)^[k] (g.filter (fun x => x == c))) := by
    intro m hm
    induction m, hm using Nat.le_induction with
    | base => intro x; exact Iff.rfl
    | succ m hm ih =>
      intro x
      rw [Function.iterate_succ_apply']
      rw [step_congr_set ih]
      exact hstab x
  intro x
  have hcompk := hfrom g.length hk
  unfold comp
  rw [step_congr_set hcompk]
  constructor
  · intro hx
    exact (hcompk x).2 ((hstab x).1 hx)
  · intro hx
    exact (hstab x).2 ((hcompk x).1 hx)

theorem comp_complete {g : Geom} {c x : Cell} (hcg : c ∈ g)
    (h : Reach g c x) : x ∈ comp g c := by
  induction h with
  | refl =>
    have hc0 : c ∈ g.filter (fun x => x == c) :=
      List.mem_filter.2 ⟨hcg, by simp⟩
    exact mem_iterate_of_mem (fun y hy => (List.mem_filter.1 hy).1) g.length c hc0
  | tail hyd hadj ih =>
    rename_i y z
    apply (comp_fixpoint g c z).1
    refine mem_step.2 ⟨hadj.2.1, Or.inr ⟨y, ih, ?_⟩⟩
    rw [adj4_symm]
    exact hadj.2.2

theorem mem_comp_iff {g : Geom} {c x : Cell} (hcg : c ∈ g) :
    x ∈ comp g c ↔ x ∈ g ∧ Reach g c x :=
  ⟨comp_sound, fun h => comp_complete hcg h.2⟩

/-! ## The component as a saturated filter of the ambient list -/

theorem filter_self_mem (g : Geom) (p : Cell → Bool) :
    g.filter (fun x => decide (x ∈ g.filter p)) = g.filter p := by
  apply List.filter_congr
  intro x hx
  by_cases hxp : p x = true
  · simp [List.mem_filter, hx, hxp]
  · simp [List.mem_filter, hxp]

theorem comp_is_filter (g : Geom) (c : Cell) :
    ∃ p, comp g c = g.filter p := by
  unfold comp
  cases hl : g.length with
  | zero => exact ⟨fun x => x == c, by rw [Function.iterate_zero_apply]⟩
  | succ n =>
    rw [Function.iterate_succ_apply']
    exact ⟨_, rfl⟩

theorem comp_filter_mem (g : Geom) (c : Cell) :
    g.filter (fun x => decide (x ∈ comp g c)) = comp g c := by
  obtain ⟨p, hp⟩ := comp_is_filter g c
  rw [hp]
  exact filter_self_mem g p

/-! ## Single-part geometries and connectivity transfer -/

theorem comp_eq_of_parts_single {g : Geom} (h : parts g = [g]) :
    ∀ c ∈ g, comp g c = g := by
  intro c hc
  have h1 : comp g c ∈ g.map (comp g) := List.mem_map_of_mem (comp g) hc
  have h2 : comp g c ∈ parts g := by
    unfold parts
    exact List.mem_dedup.2 h1
  rw [h] at h2
  simpa using h2

theorem reach_of_parts_single {g : Geom} (h : parts g = [g]) :
    ∀ c ∈ g, ∀ x ∈ g, Reach g c x := by
  intro c hc x hx
  have hcomp := comp_eq_of_parts_single h c hc
  have hx' : x ∈ comp g c := by rw [hcomp]; exact hx
  exact (comp_sound hx').2

theorem parts_single_ne_nil {g : Geom} (h : parts g = [g]) : g ≠ [] := by
  intro hg
  subst hg
  simp [parts] at h

theorem reach_mono {g g2 : Geom} (h : ∀ z ∈ g, z ∈ g2) {x y : Cell}
    (hr : Reach g x y) : Reach g2 x y :=
  Relation.ReflTransGen.mono (fun a b hab => ⟨h a hab.1, h b hab.2.1, hab.2.2⟩) hr

theorem reach_confined {g : Geom} {S : Cell → Prop}
    (hS : ∀ a b, S a → AdjIn g a b → S b) {x y : Cell}
    (hr : Reach g x y) (hx : S x) : S y := by
  induction hr with
  | refl => exact hx
  | tail _ hadj ih => exact hS _ _ ih hadj

theorem comp_eq_filter_of_sides {U W : Geom} {x : Cell}
    (hxW : x ∈ W) (hWU : ∀ z ∈ W, z ∈ U)
    (hconn : ∀ y ∈ W, Reach U x y)
    (hclosed : ∀ a b, a ∈ W → AdjIn U a b → b ∈ W) :
    comp U x = U.filter (fun z => decide (z ∈ W)) := by
  have hxU : x ∈ U := hWU x hxW
  rw [← comp_filter_mem U x]
  apply List.filter_congr
  intro z _
  apply decide_eq_decide.2
  constructor
  · intro hz
    exact reach_confined hclosed (comp_sound hz).2 hxW
  · intro hz
    exact comp_complete hxU (hconn z hz)

/-! ## Dedup bookkeeping -/

theorem dedup_append_disj {α : Type} [DecidableEq α] {l1 l2 : List α}
    (h : ∀ x ∈ l1, x ∉ l2) : (l1 ++ l2).dedup = l1.dedup ++ l2.dedup := by
  induction l1 with
  | nil => simp
  | cons a l ih =>
    have hd : ∀ x ∈ l, x ∉ l2 := fun x hx => h x (List.mem_cons_of_mem a hx)
    by_cases ha : a ∈ l
    · rw [List.cons_append, List.dedup_cons_of_mem (List.mem_append_left l2 ha),
        ih hd, List.dedup_cons_of_mem ha]
    · have ha2 : a ∉ l ++ l2 := by
        intro hmem
        rcases List.mem_append.1 hmem with h1 | h2
        · exact ha h1
        · exact h a (List.mem_cons_self a l) h2
      rw [List.cons_append, List.dedup_cons_of_not_mem ha2, ih hd,
        List.dedup_cons_of_not_mem ha, List.cons_append]

theorem dedup_replicate_pos {α : Type} [DecidableEq α] {a : α} {n : ℕ}
    (h : n ≠ 0) : (List.replicate n a).dedup = [a] := by
  induction n with
  | zero => cases h rfl
  | succ n ih =>
    cases n with
    | zero => simp
    | succ m =>
      rw [List.replicate_succ,
        List.dedup_cons_of_mem (by simp [List.mem_replicate])]
      exact ih (by simp)

theorem filter_dedup_comm {α : Type} [DecidableEq α] (p : α → Bool)
    (l : List α) : l.dedup.filter p = (l.filter p).dedup := by
  induction l with
  | nil => simp
  | cons a l ih =>
    by_cases ha : a ∈ l
    · rw [List.dedup_cons_of_mem ha]
      by_cases hp : p a = true
      · rw [List.filter_cons_of_pos hp,
          List.dedup_cons_of_mem (List.mem_filter.2 ⟨ha, hp⟩)]
        exact ih
      · rw [List.filter_cons_of_neg hp]
        exact ih
    · rw [List.dedup_cons_of_not_mem ha]
      by_cases hp : p a = true
      · have ha2 : a ∉ l.filter p := fun hm => ha (List.mem_filter.1 hm).1
        rw [List.filter_cons_of_pos hp, List.filter_cons_of_pos hp,
          List.dedup_cons_of_not_mem ha2, ih]
      · rw [List.filter_cons_of_neg hp, List.filter_cons_of_neg hp]
        exact ih

theorem intersectsB_comm (g h : Geom) : intersectsB g h = intersectsB h g := by
  apply bool_eq_of_iff
  rw [intersectsB_true_iff, intersectsB_true_iff]
  constructor
  · rintro ⟨a, ha, b, hb, ht⟩
    refine ⟨b, hb, a, ha, ?_⟩
    rw [touch8_symm]; exact ht
  · rintro ⟨a, ha, b, hb, ht⟩
    refine ⟨b, hb, a, ha, ?_⟩
    rw [touch8_symm]; exact ht

theorem parts_two_clusters {U W1 W2 : Geom}
    (hcov : ∀ z ∈ U, z ∈ W1 ∨ z ∈ W2)
    (hW1U : ∀ z ∈ W1, z ∈ U) (hW2U : ∀ z ∈ W2, z ∈ U)
    (hconn1 : ∀ x ∈ W1, ∀ y ∈ W1, Reach U x y)
    (hconn2 : ∀ x ∈ W2, ∀ y ∈ W2, Reach U x y)
    (hdisj : ∀ a ∈ W1, ∀ b ∈ W2, touch8 a b = false) :
    (∀ x ∈ W1, comp U x = U.filter (fun z => decide (z ∈ W1))) ∧
    (∀ x ∈ W2, comp U x = U.filter (fun z => decide (z ∈ W2))) := by
  have hmemdisj : ∀ a ∈ W1, a ∉ W2 := by
    intro a ha hin
    have := hdisj a ha a hin
    rw [touch8_refl a] at this
    cases this
  have hclosed1 : ∀ a b, a ∈ W1 → AdjIn U a b → b ∈ W1 := by
    intro a b ha hadj
    rcases hcov b hadj.2.1 with hb | hb
    · exact hb
    · have ht := adj4_touch8 hadj.2.2
      have hf := hdisj a ha b hb
      rw [hf] at ht
      cases ht
  have hclosed2 : ∀ a b, a ∈ W2 → AdjIn U a b → b ∈ W2 := by
    intro a b ha hadj
    rcases hcov b hadj.2.1 with hb | hb
    · have ht := adj4_touch8 hadj.2.2
      have hf := hdisj b hb a ha
      rw [touch8_symm] at ht
      rw [hf] at ht
      cases ht
    · exact hb
  constructor
  · intro x hx
    exact comp_eq_filter_of_sides hx hW1U (fun y hy => hconn1 x hx y hy) hclosed1
  · intro x hx
    exact comp_eq_filter_of_sides hx hW2U (fun y hy => hconn2 x hx y hy) hclosed2

/-- C1 (amended): for hazards `A` and `B` whose buffered footprints overlap
or share a boundary edge (`meets4`, so that their union is one single-part
region — the amendment: contact at a single boundary point is not enough,
see the counterexample), and a single-part hazard `C` disjoint from both,
`combine_overlapping_geometries` returns exactly two regions: the merged
`A`/`B` region carrying both ids joined by the separator in row order, and
`C`'s region carrying only `C`'s id with no separator; the two regions
share no cell and their areas add up to the area of the union of the
inputs. -/
theorem combine_merges_touching_pair (ia ib ic : String) (A B C : Geom)
    (hA : parts A = [A]) (hB : parts B = [B]) (hC : parts C = [C])
    (hCnd : C.Nodup)
    (hAB : meets4 A B = true)
    (hCA : intersectsB C A = false) (hCB : intersectsB C B = false) :
    combine_overlapping_geometries [(ia, A), (ib, B), (ic, C)]
        = [(ia ++ sep ++ ib, (A ++ B).dedup), (ic, C)]
      ∧ ((A ++ B).dedup).length + C.length = ((A ++ B ++ C).dedup).length
      ∧ ∀ z ∈ (A ++ B).dedup, z ∉ C := by
  have hAne : A ≠ [] := parts_single_ne_nil hA
  have hBne : B ≠ [] := parts_single_ne_nil hB
  have hCne : C ≠ [] := parts_single_ne_nil hC
  obtain ⟨a0, ha0⟩ := List.exists_mem_of_ne_nil A hAne
  obtain ⟨b0, hb0⟩ := List.exists_mem_of_ne_nil B hBne
  obtain ⟨c0, hc0⟩ := List.exists_mem_of_ne_nil C hCne
  -- membership disjointness of the A∪B cluster and C
  have hABdisjC : ∀ z, z ∈ A ++ B → z ∉ C := by
    intro z hz hzc
    rcases List.mem_append.1 hz with h | h
    · exact mem_disjoint_of_intersects_false hCA hzc h
    · exact mem_disjoint_of_intersects_false hCB hzc h
  have hdisjT : ∀ a ∈ A ++ B, ∀ b ∈ C, touch8 a b = false := by
    intro a ha b hb
    rw [touch8_symm]
    rcases List.mem_append.1 ha with h | h
    · exact no_touch_of_intersects_false hCA hb h
    · exact no_touch_of_intersects_false hCB hb h
  -- the deduplicated union splits into the AB block followed by C
  have hUeq : ((A ++ B) ++ C).dedup = (A ++ B).dedup ++ C := by
    rw [dedup_append_disj hABdisjC, List.dedup_eq_self.2 hCnd]
  have hmemU : ∀ z, z ∈ ((A ++ B) ++ C).dedup ↔ z ∈ A ++ B ∨ z ∈ C := by
    intro z
    rw [List.mem_dedup, List.mem_append]
  -- cluster inclusions into the union
  have hsubABU : ∀ z ∈ A ++ B, z ∈ ((A ++ B) ++ C).dedup :=
    fun z hz => (hmemU z).2 (Or.inl hz)
  have hsubCU : ∀ z ∈ C, z ∈ ((A ++ B) ++ C).dedup :=
    fun z hz => (hmemU z).2 (Or.inr hz)
  -- the A∪B cluster is connected inside the union
  obtain ⟨a1, ha1, b1, hb1, hbr⟩ :
      ∃ a ∈ A, ∃ b ∈ B, (a == b || adj4 a b) = true := by
    simpa [meets4, List.any_eq_true] using hAB
  have hreachA : ∀ x ∈ A, ∀ y ∈ A, Reach (((A ++ B) ++ C).dedup) x y :=
    fun x hx y hy =>
      reach_mono (fun z hz => hsubABU z (List.mem_append_left B hz))
        (reach_of_parts_single hA x hx y hy)
  have hreachB : ∀ x ∈ B, ∀ y ∈ B, Reach (((A ++ B) ++ C).dedup) x y :=
    fun x hx y hy =>
      reach_mono (fun z hz => hsubABU z (List.mem_append_right A hz))
        (reach_of_parts_single hB x hx y hy)
  have hbridge : Reach (((A ++ B) ++ C).dedup) a1 b1 := by
    rcases Bool.or_eq_true_iff.1 hbr with h | h
    · have : a1 = b1 := by simpa using h
      rw [this]
      exact Relation.ReflTransGen.refl
    · exact Relation.ReflTransGen.single
        ⟨hsubABU a1 (List.mem_append_left B ha1),
         hsubABU b1 (List.mem_append_right A hb1), h⟩
  have hconnAB : ∀ x ∈ A ++ B, ∀ y ∈ A ++ B,
      Reach (((A ++ B) ++ C).dedup) x y := by
    intro x hx y hy
    rcases List.mem_append.1 hx with hxa | hxb
    · rcases List.mem_append.1 hy with hya | hyb
      · exact hreachA x hxa y hya
      · exact ((hreachA x hxa a1 ha1).trans hbridge).trans (hreachB b1 hb1 y hyb)
    · rcases List.mem_append.1 hy with hya | hyb
      · have hback : Reach (((A ++ B) ++ C).dedup) b1 a1 := by
          rcases Bool.or_eq_true_iff.1 hbr with h | h
          · have : a1 = b1 := by simpa using h
            rw [this]
            exact Relation.ReflTransGen.refl
          · refine Relation.ReflTransGen.single
              ⟨hsubABU b1 (List.mem_append_right A hb1),
               hsubABU a1 (List.mem_append_left B ha1), ?_⟩
            rw [adj4_symm]; exact h
        exact ((hreachB x hxb b1 hb1).trans hback).trans (hreachA a1 ha1 y hya)
      · exact hreachB x hxb y hyb
  have hconnC : ∀ x ∈ C, ∀ y ∈ C, Reach (((A ++ B) ++ C).dedup) x y :=
    fun x hx y hy =>
      reach_mono hsubCU (reach_of_parts_single hC x hx y hy)
  -- components of the union
  obtain ⟨hcomp1, hcomp2⟩ :=
    parts_two_clusters (fun z hz => (hmemU z).1 hz) hsubABU hsubCU
      hconnAB hconnC hdisjT
  -- the two region geometries
  have hR1 : (((A ++ B) ++ C).dedup).filter (fun z => decide (z ∈ A ++ B))
      = (A ++ B).dedup := by
    rw [hUeq, List.filter_append]
    rw [List.filter_eq_self.2 (fun z hz => by
      simpa using List.mem_dedup.1 hz)]
    rw [List.filter_eq_nil_iff.2 (fun z hz => by
      simp only [decide_eq_true_eq]
      intro hzin
      exact hABdisjC z hzin hz)]
    rw [List.append_nil]
  have hR2 : (((A ++ B) ++ C).dedup).filter (fun z => decide (z ∈ C)) = C := by
    rw [hUeq, List.filter_append]
    rw [List.filter_eq_nil_iff.2 (fun z hz => by
      simp only [decide_eq_true_eq]
      exact hABdisjC z (List.mem_dedup.1 hz))]
    rw [List.filter_eq_self.2 (fun z hz => by simpa using hz)]
    rw [List.nil_append]
  -- the exploded union splits into exactly two parts
  have hABdne : (A ++ B).dedup ≠ [] := by
    intro h
    have : a0 ∈ (A ++ B).dedup :=
      List.mem_dedup.2 (List.mem_append_left B ha0)
    rw [h] at this
    cases this
  have hR1neR2 : (A ++ B).dedup ≠ C := by
    intro h
    have ha0d : a0 ∈ (A ++ B).dedup :=
      List.mem_dedup.2 (List.mem_append_left B ha0)
    rw [h] at ha0d
    exact hABdisjC a0 (List.mem_append_left B ha0) ha0d
  have hcompU1 : ∀ z ∈ (A ++ B).dedup,
      comp (((A ++ B) ++ C).dedup) z = (A ++ B).dedup := by
    intro z hz
    rw [hcomp1 z (List.mem_dedup.1 hz), hR1]
  have hcompU2 : ∀ z ∈ C, comp (((A ++ B) ++ C).dedup) z = C := by
    intro z hz
    rw [hcomp2 z hz, hR2]
  have hparts : parts (((A ++ B) ++ C).dedup) = [(A ++ B).dedup, C] := by
    unfold parts
    have e1 : ((A ++ B).dedup).map (comp (((A ++ B) ++ C).dedup))
        = List.replicate ((A ++ B).dedup).length ((A ++ B).dedup) := by
      rw [← List.map_const']
      exact List.map_congr_left hcompU1
    have e2 : C.map (comp (((A ++ B) ++ C).dedup))
        = List.replicate C.length C := by
      rw [← List.map_const']
      exact List.map_congr_left hcompU2
    have hmapped : (((A ++ B) ++ C).dedup).map (comp (((A ++ B) ++ C).dedup))
        = List.replicate ((A ++ B).dedup).length ((A ++ B).dedup)
          ++ List.replicate C.length C := by
      calc (((A ++ B) ++ C).dedup).map (comp (((A ++ B) ++ C).dedup))
          = ((A ++ B).dedup ++ C).map (comp (((A ++ B) ++ C).dedup)) :=
            congrArg _ hUeq
        _ = ((A ++ B).dedup).map (comp (((A ++ B) ++ C).dedup))
              ++ C.map (comp (((A ++ B) ++ C).dedup)) := List.map_append _ _ _
        _ = List.replicate ((A ++ B).dedup).length ((A ++ B).dedup)
              ++ List.replicate C.length C := by rw [e1, e2]
    rw [hmapped]
    rw [dedup_append_disj (fun x hx hx2 => by
      have hx1 : x = (A ++ B).dedup := (List.mem_replicate.1 hx).2
      have hx2' : x = C := (List.mem_replicate.1 hx2).2
      exact hR1neR2 (hx1 ▸ hx2'))]
    rw [dedup_replicate_pos (fun h => hABdne (List.length_eq_zero.1 h))]
    rw [dedup_replicate_pos (fun h => hCne (List.length_eq_zero.1 h))]
    rfl
  -- the exploded rows are the rows themselves
  have hex : explodeRows [(ia, A), (ib, B), (ic, C)] = [(ia, A), (ib, B), (ic, C)] := by
    simp [explodeRows, hA, hB, hC]
  -- intersection tests for the spatial join
  have hiAR1 : intersectsB A ((A ++ B).dedup) = true :=
    intersects_of_touch ha0 (List.mem_dedup.2 (List.mem_append_left B ha0))
      (touch8_refl a0)
  have hiBR1 : intersectsB B ((A ++ B).dedup) = true :=
    intersects_of_touch hb0 (List.mem_dedup.2 (List.mem_append_right A hb0))
      (touch8_refl b0)
  have hiCR1 : intersectsB C ((A ++ B).dedup) = false := by
    apply intersectsB_false_iff.2
    intro a ha b hb
    rw [touch8_symm]
    exact hdisjT b (List.mem_dedup.1 hb) a ha
  have hiAC : intersectsB A C = false := by
    rw [intersectsB_comm]; exact hCA
  have hiBC : intersectsB B C = false := by
    rw [intersectsB_comm]; exact hCB
  have hiCC : intersectsB C C = true :=
    intersects_of_touch hc0 hc0 (touch8_refl c0)
  refine ⟨?_, ?_, ?_⟩
  · show combine_overlapping_geometries [(ia, A), (ib, B), (ic, C)]
        = [(ia ++ sep ++ ib, (A ++ B).dedup), (ic, C)]
    have hflat : ([(ia, A), (ib, B), (ic, C)].flatMap Prod.snd).dedup
        = ((A ++ B) ++ C).dedup := by
      simp [List.append_assoc]
    simp only [combine_overlapping_geometries]
    rw [hex, hflat, hparts]
    rw [List.map_cons, List.map_cons, List.map_nil]
    rw [List.filter_cons_of_pos (by exact hiAR1),
        List.filter_cons_of_pos (by exact hiBR1),
        List.filter_cons_of_neg (by rw [hiCR1]; exact Bool.false_ne_true),
        List.filter_nil]
    rw [List.filter_cons_of_neg (by rw [hiAC]; exact Bool.false_ne_true),
        List.filter_cons_of_neg (by rw [hiBC]; exact Bool.false_ne_true),
        List.filter_cons_of_pos (by exact hiCC),
        List.filter_nil]
    rfl
  · rw [hUeq, List.length_append]
  · intro z hz
    exact hABdisjC z (List.mem_dedup.1 hz)

/-! ## The merger on pairwise non-intersecting single-part rows -/

theorem explodeRows_of_single {rows : List (String × Geom)}
    (hp : ∀ p ∈ rows, parts p.2 = [p.2]) : explodeRows rows = rows := by
  induction rows with
  | nil => rfl
  | cons r tl ih =>
    unfold explodeRows
    rw [List.flatMap_cons, hp r (List.mem_cons_self r tl)]
    rw [List.map_cons, List.map_nil]
    have htl : explodeRows tl = tl :=
      ih (fun p hp2 => hp p (List.mem_cons_of_mem r hp2))
    unfold explodeRows at htl
    rw [htl]
    rfl

theorem rows_nodup_of_pairwise {rows : List (String × Geom)}
    (hd : rows.Pairwise (fun p q => intersectsB p.2 q.2 = false))
    (hne : ∀ p ∈ rows, p.2 ≠ []) : rows.Nodup := by
  apply List.Pairwise.imp_of_mem ?_ hd
  intro p q hpmem _ hpq heq
  obtain ⟨z, hz⟩ := List.exists_mem_of_ne_nil p.2 (hne p hpmem)
  have : touch8 z z = false := by
    apply no_touch_of_intersects_false hpq hz
    rw [← heq]
    exact hz
  rw [touch8_refl z] at this
  cases this

theorem pairwise_all_disjoint {rows : List (String × Geom)}
    (hd : rows.Pairwise (fun p q => intersectsB p.2 q.2 = false)) :
    ∀ p ∈ rows, ∀ q ∈ rows, p = q ∨ intersectsB p.2 q.2 = false := by
  intro p hp q hq
  by_cases heq : p = q
  · exact Or.inl heq
  · refine Or.inr (List.Pairwise.forall ?_ hd hp hq heq)
    intro x y hxy
    rw [intersectsB_comm]
    exact hxy

theorem flatMap_snd_nodup {rows : List (String × Geom)}
    (hn : ∀ p ∈ rows, p.2.Nodup)
    (hd : rows.Pairwise (fun p q => intersectsB p.2 q.2 = false)) :
    (rows.flatMap Prod.snd).Nodup := by
  rw [List.flatMap_def]
  apply List.nodup_flatten.2
  constructor
  · intro l hl
    obtain ⟨p, hp, hpl⟩ := List.mem_map.1 hl
    rw [← hpl]
    exact hn p hp
  · rw [List.pairwise_map]
    apply List.Pairwise.imp ?_ hd
    intro p q hpq
    intro z hz1 hz2
    exact mem_disjoint_of_intersects_false (by rw [intersectsB_comm]; exact hpq) hz2 hz1

theorem comp_row_cluster {rows : List (String × Geom)}
    (hp : ∀ p ∈ rows, parts p.2 = [p.2])
    (hd : rows.Pairwise (fun p q => intersectsB p.2 q.2 = false))
    {p : String × Geom} (hpmem : p ∈ rows) :
    ∀ z ∈ p.2, comp (rows.flatMap Prod.snd) z
      = (rows.flatMap Prod.snd).filter (fun w => decide (w ∈ p.2)) := by
  have hall := pairwise_all_disjoint hd
  intro z hz
  apply comp_eq_filter_of_sides hz
  · intro w hw
    exact List.mem_flatMap.2 ⟨p, hpmem, hw⟩
  · intro y hy
    apply reach_mono (fun w hw => List.mem_flatMap.2 ⟨p, hpmem, hw⟩)
    exact reach_of_parts_single (hp p hpmem) z hz y hy
  · intro a b ha hadj
    obtain ⟨q, hq, hbq⟩ := List.mem_flatMap.1 hadj.2.1
    rcases hall p hpmem q hq with heq | hdisj
    · rw [heq]; exact hbq
    · have ht := adj4_touch8 hadj.2.2
      have hf := no_touch_of_intersects_false hdisj ha hbq
      rw [hf] at ht
      cases ht

theorem flatMap_filter_row {rows : List (String × Geom)}
    (hnd : rows.Nodup)
    (hall : ∀ p ∈ rows, ∀ q ∈ rows, p = q ∨ intersectsB p.2 q.2 = false)
    {p : String × Geom} (hpmem : p ∈ rows) :
    (rows.flatMap Prod.snd).filter (fun w => decide (w ∈ p.2)) = p.2 := by
  induction rows with
  | nil => cases hpmem
  | cons r tl ih =>
    rw [List.flatMap_cons, List.filter_append]
    have halltl : ∀ a ∈ tl, ∀ b ∈ tl, a = b ∨ intersectsB a.2 b.2 = false :=
      fun a ha b hb =>
        hall a (List.mem_cons_of_mem r ha) b (List.mem_cons_of_mem r hb)
    rcases List.mem_cons.1 hpmem with heq | htl
    · subst heq
      rw [List.filter_eq_self.2 (fun z hz => by simpa using hz)]
      rw [List.filter_eq_nil_iff.2 ?_]
      · rw [List.append_nil]
      · intro z hz
        simp only [decide_eq_true_eq]
        obtain ⟨q, hq, hzq⟩ := List.mem_flatMap.1 hz
        intro hzp
        have hqne : p ≠ q := by
          intro h
          rw [h] at hnd
          exact (List.nodup_cons.1 hnd).1 hq
        rcases hall p (List.mem_cons_self p tl) q (List.mem_cons_of_mem p hq)
          with h | h
        · exact hqne h
        · exact mem_disjoint_of_intersects_false h hzp hzq
    · have hrne : r ≠ p := by
        intro h
        rw [h] at hnd
        exact (List.nodup_cons.1 hnd).1 htl
      rw [List.filter_eq_nil_iff.2 ?_]
      · rw [List.nil_append]
        exact ih (List.nodup_cons.1 hnd).2 halltl htl
      · intro z hz
        simp only [decide_eq_true_eq]
        intro hzp
        rcases hall r (List.mem_cons_self r tl) p hpmem with h | h
        · exact hrne h
        · exact mem_disjoint_of_intersects_false h hz hzp

theorem dedup_flatMap_replicate {gs : List Geom}
    (hne : ∀ g ∈ gs, g ≠ []) (hnd : gs.Nodup) :
    (gs.flatMap (fun g => List.replicate g.length g)).dedup = gs := by
  induction gs with
  | nil => rfl
  | cons g tl ih =>
    rw [List.flatMap_cons]
    rw [dedup_append_disj ?_]
    · rw [dedup_replicate_pos (fun h => hne g (List.mem_cons_self g tl)
        (List.length_eq_zero.1 h))]
      rw [ih (fun h hh => hne h (List.mem_cons_of_mem g hh))
        (List.nodup_cons.1 hnd).2]
      rfl
    · intro x hx hx2
      have hxg : x = g := (List.mem_replicate.1 hx).2
      obtain ⟨h, hh, hxh⟩ := List.mem_flatMap.1 hx2
      have hxh' : x = h := (List.mem_replicate.1 hxh).2
      apply (List.nodup_cons.1 hnd).1
      rw [← hxg, hxh']
      exact hh

theorem filter_intersects_self {rows : List (String × Geom)}
    (hnd : rows.Nodup)
    (hall : ∀ p ∈ rows, ∀ q ∈ rows, p = q ∨ intersectsB p.2 q.2 = false)
    (hne : ∀ p ∈ rows, p.2 ≠ [])
    {p : String × Geom} (hpmem : p ∈ rows) :
    rows.filter (fun q => intersectsB q.2 p.2) = [p] := by
  induction rows with
  | nil => cases hpmem
  | cons r tl ih =>
    have halltl : ∀ a ∈ tl, ∀ b ∈ tl, a = b ∨ intersectsB a.2 b.2 = false :=
      fun a ha b hb =>
        hall a (List.mem_cons_of_mem r ha) b (List.mem_cons_of_mem r hb)
    have hnetl : ∀ a ∈ tl, a.2 ≠ [] :=
      fun a ha => hne a (List.mem_cons_of_mem r ha)
    rcases List.mem_cons.1 hpmem with heq | htl
    · subst heq
      obtain ⟨z, hz⟩ := List.exists_mem_of_ne_nil p.2 (hne p hpmem)
      rw [List.filter_cons_of_pos
        (by exact intersects_of_touch hz hz (touch8_refl z))]
      rw [List.filter_eq_nil_iff.2 ?_]
      · intro q hq
        have hqne : q ≠ p := by
          intro h
          rw [h] at hq
          exact (List.nodup_cons.1 hnd).1 hq
        rcases hall q (List.mem_cons_of_mem p hq) p (List.mem_cons_self p tl)
          with h | h
        · exact absurd h hqne
        · rw [h]
          exact Bool.false_ne_true
    · have hrne : r ≠ p := by
        intro h
        rw [h] at hnd
        exact (List.nodup_cons.1 hnd).1 htl
      rw [List.filter_cons_of_neg ?_]
      · exact ih (List.nodup_cons.1 hnd).2 halltl hnetl htl
      · rcases hall r (List.mem_cons_self r tl) p hpmem with h | h
        · exact absurd h hrne
        · rw [h]
          exact Bool.false_ne_true

/-- C4 (amended): on rows whose geometries are single-part and pairwise
non-intersecting — disjoint as closed sets, with no shared boundary point;
the amendment, since the merger's own output may still contain regions
that touch at a corner and those get re-merged ids on a second run —
`combine_overlapping_geometries` returns its input unchanged: every
region's identifier and geometry are preserved. -/
theorem combine_fixes_disjoint (rows : List (String × Geom))
    (hp : ∀ p ∈ rows, parts p.2 = [p.2])
    (hn : ∀ p ∈ rows, p.2.Nodup)
    (hd : rows.Pairwise (fun p q => intersectsB p.2 q.2 = false)) :
    combine_overlapping_geometries rows = rows := by
  have hne : ∀ p ∈ rows, p.2 ≠ [] := fun p hp2 => parts_single_ne_nil (hp p hp2)
  have hnd : rows.Nodup := rows_nodup_of_pairwise hd hne
  have hall := pairwise_all_disjoint hd
  have hflatnodup : (rows.flatMap Prod.snd).Nodup := flatMap_snd_nodup hn hd
  have hex : explodeRows rows = rows := explodeRows_of_single hp
  have hdedup : (rows.flatMap Prod.snd).dedup = rows.flatMap Prod.snd :=
    List.dedup_eq_self.2 hflatnodup
  have hcomp : ∀ p ∈ rows, ∀ z ∈ p.2,
      comp (rows.flatMap Prod.snd) z = p.2 := by
    intro p hpmem z hz
    rw [comp_row_cluster hp hd hpmem z hz]
    exact flatMap_filter_row hnd hall hpmem
  have hsndnodup : (rows.map Prod.snd).Nodup := by
    apply List.Nodup.map_on ?_ hnd
    intro p hpmem q hqmem heq
    rcases hall p hpmem q hqmem with h | h
    · exact h
    · obtain ⟨z, hz⟩ := List.exists_mem_of_ne_nil p.2 (hne p hpmem)
      have hzq : z ∈ q.2 := by rw [← heq]; exact hz
      exact absurd hzq (mem_disjoint_of_intersects_false h hz)
  have hpartsU : parts (rows.flatMap Prod.snd) = rows.map Prod.snd := by
    unfold parts
    have hUmap : (rows.flatMap Prod.snd).map (comp (rows.flatMap Prod.snd))
        = (rows.map Prod.snd).flatMap (fun g => List.replicate g.length g) := by
      rw [List.flatMap_def, List.map_flatten, List.flatMap_def]
      congr 1
      rw [List.map_map, List.map_map]
      apply List.map_congr_left
      intro p hpmem
      show p.2.map (comp (rows.flatMap Prod.snd))
          = List.replicate p.2.length p.2
      rw [← List.map_const']
      exact List.map_congr_left (fun z hz => hcomp p hpmem z hz)
    rw [hUmap]
    apply dedup_flatMap_replicate ?_ hsndnodup
    intro g hg
    obtain ⟨p, hpmem, hpg⟩ := List.mem_map.1 hg
    rw [← hpg]
    exact hne p hpmem
  show combine_overlapping_geometries rows = rows
  simp only [combine_overlapping_geometries]
  rw [hex, hdedup, hpartsU]
  rw [List.map_map]
  have hpt : ∀ p ∈ rows,
      ((fun r => (joinIds ((rows.filter
        (fun q => intersectsB q.2 r)).map Prod.fst), r)) ∘ Prod.snd) p = p := by
    intro p hpmem
    show (joinIds ((rows.filter
      (fun q => intersectsB q.2 p.2)).map Prod.fst), p.2) = p
    rw [filter_intersects_self hnd hall hne hpmem]
    rfl
  rw [List.map_congr_left hpt]
  exact List.map_id' rows

/-! ## The Buffering Engine: buffer semantics over the real plane -/

theorem bufferGeom_of_pos {d : ℝ} (hd : 0 < d) (G : Set Pt) :
    bufferGeom d G = Metric.cthickening d G := by
  ext x
  simp only [bufferGeom, Set.mem_setOf_eq]
  constructor
  · rintro (⟨_, h⟩ | ⟨h, _⟩ | ⟨h, _⟩)
    · exact h
    · exact absurd (h ▸ hd) (lt_irrefl 0)
    · exact absurd hd (not_lt.2 h.le)
  · intro h
    exact Or.inl ⟨hd, h⟩

theorem bufferGeom_of_zero (G : Set Pt) :
    bufferGeom 0 G = closure (interior G) := by
  ext x
  simp only [bufferGeom, Set.mem_setOf_eq]
  constructor
  · rintro (⟨h, _⟩ | ⟨_, h⟩ | ⟨h, _⟩)
    · exact absurd h (lt_irrefl 0)
    · exact h
    · exact absurd h (lt_irrefl 0)
  · intro h
    exact Or.inr (Or.inl ⟨by trivial, h⟩)

theorem bufferGeom_of_neg {d : ℝ} (hd : d < 0) (G : Set Pt) :
    bufferGeom d G = {x | Metric.closedBall x (-d) ⊆ G} := by
  ext x
  simp only [bufferGeom, Set.mem_setOf_eq]
  constructor
  · rintro (⟨h, _⟩ | ⟨h, _⟩ | ⟨_, h⟩)
    · exact absurd hd (not_lt.2 h.le)
    · exact absurd (h ▸ hd) (lt_irrefl 0)
    · exact h
  · intro h
    exact Or.inr (Or.inr ⟨hd, h⟩)

theorem buffer_zero_regular {G : Set Pt} (hreg : closure (interior G) = G) :
    bufferGeom 0 G = G := by
  rw [bufferGeom_of_zero, hreg]

theorem interior_singleton_pt (p : Pt) :
    interior ({p} : Set Pt) = ∅ := by
  ext x
  simp only [Set.mem_empty_iff_false, iff_false]
  intro hx
  obtain ⟨ε, hε, hball⟩ := Metric.isOpen_iff.1 isOpen_interior x hx
  have h1 : x ∈ ({p} : Set Pt) := interior_subset hx
  have h2 : (x.1 + ε / 2, x.2) ∈ Metric.ball x ε := by
    rw [Metric.mem_ball, Prod.dist_eq]
    simp only [dist_self]
    rw [Real.dist_eq, show x.1 + ε / 2 - x.1 = ε / 2 by ring,
      abs_of_nonneg (by linarith)]
    rw [max_eq_left (by linarith)]
    linarith
  have h3 : (x.1 + ε / 2, x.2) ∈ ({p} : Set Pt) := interior_subset (hball h2)
  have e1 : x.1 = p.1 := congrArg Prod.fst h1
  have e2 : x.1 + ε / 2 = p.1 := congrArg Prod.fst h3
  linarith

open MeasureTheory in
theorem buffer_pos_grows {G : Set Pt} (hG : IsClosed G) (hne : G.Nonempty)
    (hb : Bornology.IsBounded G) {d : ℝ} (hd : 0 < d) :
    G ⊆ bufferGeom d G ∧ volume G < volume (bufferGeom d G) := by
  rw [bufferGeom_of_pos hd]
  have hsub : G ⊆ Metric.cthickening d G := Metric.self_subset_cthickening G
  refine ⟨hsub, ?_⟩
  -- compact closure = G itself (closed and bounded)
  have hK : IsCompact G := Metric.isCompact_of_isClosed_isBounded hG hb
  obtain ⟨p, hpK, hpmax⟩ := hK.exists_isMaxOn hne continuous_fst.continuousOn
  have hd2 : (0 : ℝ) < d / 2 := half_pos hd
  -- a ball sticking out beyond the maximal first coordinate
  have hball_sub : Metric.ball (p.1 + d / 2, p.2) (d / 2) ⊆
      Metric.cthickening d G := by
    intro y hy
    apply Metric.mem_cthickening_of_dist_le y p d G hpK
    have h1 : dist y (p.1 + d / 2, p.2) < d / 2 := Metric.mem_ball.1 hy
    have h2 : dist (p.1 + d / 2, p.2) p = d / 2 := by
      rw [Prod.dist_eq]
      simp only [dist_self]
      rw [Real.dist_eq]
      rw [max_eq_left (abs_nonneg _)]
      rw [show p.1 + d / 2 - p.1 = d / 2 by ring]
      exact abs_of_nonneg hd2.le
    calc dist y p ≤ dist y (p.1 + d / 2, p.2) + dist (p.1 + d / 2, p.2) p :=
          dist_triangle _ _ _
      _ ≤ d / 2 + d / 2 := by rw [h2]; linarith
      _ = d := by ring
  have hdisj : Disjoint G (Metric.ball (p.1 + d / 2, p.2) (d / 2)) := by
    rw [Set.disjoint_left]
    intro y hyG hyB
    have h1 : dist y (p.1 + d / 2, p.2) < d / 2 := Metric.mem_ball.1 hyB
    have h2 : dist y.1 (p.1 + d / 2) ≤ dist y (p.1 + d / 2, p.2) := by
      rw [Prod.dist_eq]
      exact le_max_left _ _
    have h3 : |y.1 - (p.1 + d / 2)| < d / 2 := by
      rw [← Real.dist_eq]
      exact lt_of_le_of_lt h2 h1
    have h4 : y.1 ≤ p.1 := hpmax hyG
    rw [abs_lt] at h3
    linarith [h3.1]
  have hfin : volume G ≠ ⊤ := hK.measure_lt_top.ne
  have hballpos : 0 < volume (Metric.ball (p.1 + d / 2, p.2) (d / 2)) :=
    Metric.measure_ball_pos volume _ hd2
  calc volume G
      < volume G + volume (Metric.ball (p.1 + d / 2, p.2) (d / 2)) :=
        ENNReal.lt_add_right hfin hballpos.ne'
    _ = volume (G ∪ Metric.ball (p.1 + d / 2, p.2) (d / 2)) :=
        (measure_union hdisj measurableSet_ball).symm
    _ ≤ volume (Metric.cthickening d G) := by
        apply measure_mono
        apply Set.union_subset hsub hball_sub

theorem buffer_neg_subset {d : ℝ} (hd : d < 0) (G : Set Pt) :
    bufferGeom d G ⊆ G := by
  rw [bufferGeom_of_neg hd]
  intro x hx
  exact hx (Metric.mem_closedBall_self (by linarith))

theorem buffer_neg_singleton_empty :
    bufferGeom (-1) ({((0 : ℝ), (0 : ℝ))} : Set Pt) = ∅ := by
  rw [bufferGeom_of_neg (by norm_num)]
  ext x
  simp only [Set.mem_setOf_eq, Set.mem_empty_iff_false, iff_false]
  intro h
  have h1 : x ∈ Metric.closedBall x (-(-1) : ℝ) :=
    Metric.mem_closedBall_self (by norm_num)
  have h2 : (x.1 + 1, x.2) ∈ Metric.closedBall x (-(-1) : ℝ) := by
    rw [Metric.mem_closedBall]
    rw [Prod.dist_eq]
    simp only [dist_self]
    rw [Real.dist_eq]
    rw [show x.1 + 1 - x.1 = 1 by ring]
    norm_num
  have hx0 : x = ((0 : ℝ), (0 : ℝ)) := h h1
  have hx1 : (x.1 + 1, x.2) = ((0 : ℝ), (0 : ℝ)) := h h2
  have : x.1 = 0 := by rw [hx0]
  have : x.1 + 1 = 0 := by
    have := congrArg Prod.fst hx1
    simpa using this
  linarith

/-! ## The Projection Selector -/

/-- Away from the antimeridian the computed zone really lies in `1..60`:
for `-180 ≤ lon < 180` the zone term of `get_best_utm_projection` is in
range.  (At `lon = 180` itself it is not — see the claim theorem.) -/
theorem get_best_utm_zone_in_range {lon : ℚ} (h1 : -180 ≤ lon)
    (h2 : lon < 180) :
    1 ≤ ⌊(lon + 180) / 6⌋ + 1 ∧ ⌊(lon + 180) / 6⌋ + 1 ≤ 60 := by
  have hnn : (0 : ℚ) ≤ (lon + 180) / 6 :=
    div_nonneg (by linarith) (by norm_num)
  have hlt : (lon + 180) / 6 < 60 := by
    rw [div_lt_iff₀ (by norm_num : (0 : ℚ) < 6)]
    linarith
  have f1 : 0 ≤ ⌊(lon + 180) / 6⌋ := Int.floor_nonneg.2 hnn
  have f2 : ⌊(lon + 180) / 6⌋ < 60 := Int.floor_lt.2 (by exact_mod_cast hlt)
  omega

/-- C3: at the in-range input `lat = 0`, `lon = 180` the code computes
zone `(180 + 180) // 6 + 1 = 61` and returns EPSG code `32661`, which is
not a UTM zone code (zones run 1..60; the spec requires the zone to wrap
at the antimeridian).  This theorem evaluates the code at the failing
input. -/
theorem get_best_utm_code_at_180 : get_best_utm_code 0 180 = 32661 := by
  unfold get_best_utm_code
  rw [if_pos (le_refl (0 : ℚ))]
  norm_num

/-! ## Zonal aggregation (C5) -/

/-- C5: a geometry row with zero raster coverage — no raster pixel
carrying data lies in the geometry, which covers both a geometry entirely
outside the raster extent and one lying only over nodata cells — comes out
of `mask_raster_partial_pixel` with population exactly `0`: an actual
numeric zero in the result row, not a missing value, and no error is
raised (the function is total and keeps the row). -/
theorem mask_raster_partial_pixel_zero_coverage (rows : List HRow)
    (raster : Raster) (row : HRow) (hrow : row ∈ rows)
    (hzero : ∀ pix ∈ raster.data, pix.1 ∉ row.geometry) :
    (row, (0 : ℚ)) ∈ mask_raster_partial_pixel rows raster := by
  unfold mask_raster_partial_pixel
  apply List.mem_map.2
  refine ⟨row, hrow, ?_⟩
  have hsum : exactExtractSum raster row.geometry = 0 := by
    unfold exactExtractSum
    rw [List.filter_eq_nil_iff.2 ?_]
    · rfl
    · intro pix hpix
      simp only [decide_eq_true_eq]
      exact hzero pix hpix
  rw [hsum]

/-- Witness for C5: a one-row frame whose geometry lies away from the only
raster pixel reports population `0`. -/
theorem mask_raster_partial_pixel_zero_coverage_witness :
    ((⟨idH, cellsC, none⟩ : HRow), (0 : ℚ)) ∈
      mask_raster_partial_pixel [⟨idH, cellsC, none⟩]
        (Raster.mk [(((0 : ℤ), (0 : ℤ)), 5)]) :=
  mask_raster_partial_pixel_zero_coverage [⟨idH, cellsC, none⟩]
    (Raster.mk [(((0 : ℤ), (0 : ℤ)), 5)]) ⟨idH, cellsC, none⟩
    (by decide) (by decide)

/-! ## Orchestrator semantics (C6, C9) -/

/-- C6: `find_num_people_affected` with `by_unique_hazard = true` skips the
Overlap Merger and returns one row per original hazard id, each population
computed by exact extraction over that hazard's own buffered footprint —
overlapping or not, so overlap regions can be counted in several rows;
with `by_unique_hazard = false` the merger runs first and the result is
keyed by the merged ids. -/
theorem find_num_people_affected_flag_semantics
    (hazards : List (String × Geom)) (raster : Raster) :
    find_num_people_affected hazards raster true
        = hazards.map (fun p => (p.1, exactExtractSum raster p.2))
    ∧ find_num_people_affected hazards raster false
        = (combine_overlapping_geometries hazards).map
            (fun p => (p.1, exactExtractSum raster p.2)) := by
  constructor
  · simp [find_num_people_affected, mask_raster_partial_pixel,
      add_bounding_box_col, toHRow, List.map_map, Function.comp_def]
  · simp [find_num_people_affected, mask_raster_partial_pixel,
      add_bounding_box_col, toHRow, List.map_map, Function.comp_def]

/-- C9: removing the `add_bounding_box_col` stage from the live
partial-pixel pipeline does not change its output: the masking step reads
only the active geometry column and extracts against the full raster, so
the per-id populations are identical with or without the bounding-box
column. -/
theorem find_num_people_affected_bbox_no_effect
    (hazards : List (String × Geom)) (raster : Raster)
    (by_unique_hazard : Bool) :
    find_num_people_affected hazards raster by_unique_hazard
      = find_num_people_affected_without_bbox hazards raster
          by_unique_hazard := by
  simp [find_num_people_affected, find_num_people_affected_without_bbox,
    mask_raster_partial_pixel, add_bounding_box_col, toHRow, List.map_map,
    Function.comp_def]

/-! ## Input loading (C8) -/

/-- C8: for every input path whose suffix is neither `.geojson` nor
`.parquet`, `load_ch` rejects the input with the fatal
unsupported-file-type error (the spec's `UnsupportedFileFormat`; in the
source a raised `FileNotFoundError` that no caller catches, so the run
aborts). -/
theorem load_ch_rejects_unsupported (p : String)
    (h1 : pathSuffix p ≠ geojsonExt) (h2 : pathSuffix p ≠ parquetExt) :
    load_ch p = Except.error (unsupportedMsg p) := by
  unfold load_ch
  rw [if_neg h1, if_neg h2]

/-- Witness for C8: a `.csv` path is rejected with the fatal error. -/
theorem load_ch_rejects_unsupported_witness :
    load_ch csvPath = Except.error (unsupportedMsg csvPath) :=
  load_ch_rejects_unsupported csvPath (by decide) (by decide)

/-! ## Buffering Engine claims (C2, C7) -/

/-- C2 counterexample: a point hazard (the spec admits point geometries;
the centroid of a point is the point itself) with `buffer_dist = 0`
buffers to the empty geometry — shapely/GEOS's zero-distance buffer keeps
only the areal component, `POLYGON EMPTY` for a point — which is not
equal to the nonempty original under any tolerance.  So the
`buffer_dist = 0` half of the claim fails on the program. -/
theorem buffer_zero_point_not_original :
    bufferGeom 0 ({((0 : ℝ), (0 : ℝ))} : Set Pt) = ∅
    ∧ ({((0 : ℝ), (0 : ℝ))} : Set Pt) ≠ ∅ := by
  constructor
  · rw [bufferGeom_of_zero, interior_singleton_pt, closure_empty]
  · intro h
    have hmem : ((0 : ℝ), (0 : ℝ)) ∈ ({((0 : ℝ), (0 : ℝ))} : Set Pt) := rfl
    rw [h] at hmem
    exact hmem

/-- C2 (amended): for every closed, nonempty, bounded hazard geometry the
buffering step of `add_buffered_geom_col` (with the projection round-trip
exact) returns, for `buffer_dist = 0`, the geometry itself provided the
geometry is areal — a regular closed set, equal to the closure of its
interior, as every valid polygonal hazard is; point and line hazards
instead buffer to the empty geometry (the amendment, see the
counterexample).  For `buffer_dist > 0` the buffered geometry contains
the original and has strictly greater area, as claimed. -/
theorem add_buffered_geom_col_zero_and_pos (G : Set Pt) (d : ℝ)
    (hG : IsClosed G) (hne : G.Nonempty) (hb : Bornology.IsBounded G) :
    (d = 0 → closure (interior G) = G → bufferGeom d G = G) ∧
    (0 < d → G ⊆ bufferGeom d G ∧
      MeasureTheory.volume G < MeasureTheory.volume (bufferGeom d G)) := by
  constructor
  · rintro rfl hreg
    exact buffer_zero_regular hreg
  · intro hd
    exact buffer_pos_grows hG hne hb hd

/-- Witness for C2's amended claim: the closed unit square about the
origin (a regular closed set) is returned unchanged by the zero buffer,
and its `1`-buffer contains it with strictly greater area. -/
theorem add_buffered_geom_col_zero_and_pos_witness :
    bufferGeom 0 (Metric.closedBall ((0 : ℝ), (0 : ℝ)) 1)
        = Metric.closedBall ((0 : ℝ), (0 : ℝ)) 1
    ∧ Metric.closedBall ((0 : ℝ), (0 : ℝ)) 1
        ⊆ bufferGeom 1 (Metric.closedBall ((0 : ℝ), (0 : ℝ)) 1)
    ∧ MeasureTheory.volume (Metric.closedBall ((0 : ℝ), (0 : ℝ)) 1)
        < MeasureTheory.volume
            (bufferGeom 1 (Metric.closedBall ((0 : ℝ), (0 : ℝ)) 1)) := by
  have hG : IsClosed (Metric.closedBall ((0 : ℝ), (0 : ℝ)) 1) :=
    Metric.isClosed_ball
  have hne : (Metric.closedBall ((0 : ℝ), (0 : ℝ)) 1).Nonempty :=
    ⟨((0 : ℝ), (0 : ℝ)), Metric.mem_closedBall_self zero_le_one⟩
  have hb : Bornology.IsBounded (Metric.closedBall ((0 : ℝ), (0 : ℝ)) 1) :=
    Metric.isBounded_closedBall
  have hreg : closure (interior (Metric.closedBall ((0 : ℝ), (0 : ℝ)) 1))
      = Metric.closedBall ((0 : ℝ), (0 : ℝ)) 1 := by
    rw [interior_closedBall _ one_ne_zero, closure_ball _ one_ne_zero]
  exact ⟨(add_buffered_geom_col_zero_and_pos
      (Metric.closedBall ((0 : ℝ), (0 : ℝ)) 1) 0 hG hne hb).1 rfl hreg,
    (add_buffered_geom_col_zero_and_pos
      (Metric.closedBall ((0 : ℝ), (0 : ℝ)) 1) 1 hG hne hb).2 one_pos⟩

/-- C7 counterexample: with `buffer_dist = -1` the Buffering Engine does
not raise any error — there is no `InvalidBufferDistance` anywhere in the
source, and shapely's buffer applies erosion for negative distances — it
silently produces a geometry; on a point hazard the produced buffered
geometry is empty. -/
theorem buffer_neg_one_point_empty :
    bufferGeom (-1) ({((0 : ℝ), (0 : ℝ))} : Set Pt) = ∅ :=
  buffer_neg_singleton_empty

/-- C7 (amended): a negative `buffer_dist` is not rejected: the buffering
step silently applies shapely's eroding (negative) buffer, producing a
subset of the original geometry (possibly empty) instead of raising
`InvalidBufferDistance`. -/
theorem add_buffered_geom_col_neg_silently_erodes (d : ℝ) (hd : d < 0)
    (G : Set Pt) : bufferGeom d G ⊆ G :=
  buffer_neg_subset hd G

/-- Witness for C7's amended claim: the `-1` buffer of the point at the
origin is a subset of it. -/
theorem add_buffered_geom_col_neg_silently_erodes_witness :
    bufferGeom (-1) ({((0 : ℝ), (0 : ℝ))} : Set Pt)
      ⊆ ({((0 : ℝ), (0 : ℝ))} : Set Pt) :=
  add_buffered_geom_col_neg_silently_erodes (-1) (by norm_num)
    {((0 : ℝ), (0 : ℝ))}

/-! ## Overlap Merger claims: counterexamples and witnesses (C1, C4, C10) -/

/-- C1 counterexample: hazards `A` and `B` sharing only a boundary point
(corner-touching cells) with `C` disjoint from both.  The union of `A`
and `B` explodes into two single-part regions (their interiors are not
connected), each of which intersects both inputs, so the output has three
regions — two of them carrying the merged id — not the two regions the
claim asserts.  (The boundary-point contact does count as overlapping for
id assignment, but it breaks the two-region shape of the claim.) -/
theorem combine_corner_touch_three_regions :
    combine_overlapping_geometries [(idA, cellsA), (idB, cellsBcorner), (idC, cellsC)]
        = [(idA ++ sep ++ idB, cellsA), (idA ++ sep ++ idB, cellsBcorner),
           (idC, cellsC)]
      ∧ (combine_overlapping_geometries
          [(idA, cellsA), (idB, cellsBcorner), (idC, cellsC)]).length ≠ 2 := by
  decide

/-- Witness for C1's amended claim: an edge-adjacent pair and a distant
third hazard produce exactly the merged region and the untouched region. -/
theorem combine_merges_touching_pair_witness :
    combine_overlapping_geometries [(idA, cellsA), (idB, cellsB), (idC, cellsC)]
      = [(idA ++ sep ++ idB, (cellsA ++ cellsB).dedup), (idC, cellsC)] :=
  (combine_merges_touching_pair idA idB idC cellsA cellsB cellsC
    (by decide) (by decide) (by decide) (by decide) (by decide) (by decide)
    (by decide)).1

/-- C4 counterexample: the merger is not a fixed point on its own output.
On the corner-touching pair the first run produces two regions both
labelled with the joined id; because those regions still intersect (they
share a boundary point), a second run joins the ids again, so running the
merger on its own (pairwise non-overlapping) output changes it. -/
theorem combine_not_idempotent_on_own_output :
    combine_overlapping_geometries
        (combine_overlapping_geometries [(idX, cellsA), (idY, cellsBcorner)])
      ≠ combine_overlapping_geometries [(idX, cellsA), (idY, cellsBcorner)] := by
  decide

/-- Witness for C4's amended claim: two single-part rows with no boundary
contact pass through the merger unchanged. -/
theorem combine_fixes_disjoint_witness :
    combine_overlapping_geometries [(idX, cellsA), (idY, cellsFar)]
      = [(idX, cellsA), (idY, cellsFar)] :=
  combine_fixes_disjoint [(idX, cellsA), (idY, cellsFar)]
    (by decide) (by decide) (by decide)

/-- C10: a multi-part hazard geometry yields its identifier more than once
in the merger output.  A hazard with two far-apart parts comes out as two
rows both carrying its id; and when two parts of hazard `A` are bridged by
hazard `B` into one connected region, the region's merged id joins the
per-part matches without deduplication, repeating `A` around the
separator (`A___A___B`). -/
theorem combine_multipart_repeats_ids :
    combine_overlapping_geometries [(idA, cellsMultiA)]
        = [(idA, cellsA), (idA, cellsC)]
      ∧ combine_overlapping_geometries [(idA, cellsSplitA), (idB, cellsB)]
        = [(idA ++ sep ++ idA ++ sep ++ idB,
            [((0 : ℤ), (0 : ℤ)), ((2 : ℤ), (0 : ℤ)), ((1 : ℤ), (0 : ℤ))])] := by
  decide
